import Mathlib

/-
  Verification of the WrenchIT JSON cleaning pipeline
  (src/src/extension.ts, functions cleanAndParseJson, tryUnwrapString,
  wrapAndUnescape, unquoteJsonStringValues, grafanaDeepClean).

  Strings are modelled as lists of characters via String.data.  The external
  library call JSON.parse is modelled by an executable JSON parser
  (jsonParse below) following ECMA-404 / the ECMAScript JSON.parse grammar:
  numbers are kept as their source lexeme, object entries are kept in
  parse order.  A throwing JS computation is modelled as an Option that
  is none on throw.
-/

namespace WrenchIT

/-- Open-brace character, written numerically. -/
def braceO : Char := Char.ofNat 123

/-- Close-brace character, written numerically. -/
def braceC : Char := Char.ofNat 125

/-- JSON whitespace as accepted by JSON.parse: space, tab, LF, CR. -/
def jsonWsChar (c : Char) : Bool :=
  c == ' ' || c == '\t' || c == '\n' || c == '\r'

/-- Drop leading JSON whitespace. -/
def skipWs (cs : List Char) : List Char := cs.dropWhile jsonWsChar

/-- JS whitespace, as used by String.prototype.trim and the regex class
backslash-s: space, tab, LF, CR, VT, FF, NBSP, BOM, LS, PS.  (The exotic
Unicode Zs space separators are omitted from the model.) -/
def jsWsChar (c : Char) : Bool :=
  c == ' ' || c == '\t' || c == '\n' || c == '\r' || c == Char.ofNat 11 ||
  c == Char.ofNat 12 || c == Char.ofNat 160 || c == Char.ofNat 0xFEFF ||
  c == Char.ofNat 0x2028 || c == Char.ofNat 0x2029

/-- Model of the JS String.prototype.trim call. -/
def jsTrim (s : String) : String :=
  String.mk (((s.data.dropWhile jsWsChar).reverse.dropWhile jsWsChar).reverse)

/-- The character class A-Za-z0-9._- used in the negative lookbehinds of
the slash-stripping regexes. -/
def wordClass (c : Char) : Bool :=
  (65 ≤ c.toNat && c.toNat ≤ 90) || (97 ≤ c.toNat && c.toNat ≤ 122) ||
  (48 ≤ c.toNat && c.toNat ≤ 57) || c == '.' || c == '_' || c == '-'

/-- The slash set of a regex slash run: forward slash always, backslash
only when the class is the two-character class (both = true). -/
def isSlashB (both : Bool) (c : Char) : Bool :=
  c == '/' || (both && c == '\\')

/-- Decimal digit test. -/
def isDigitC (c : Char) : Bool := 48 ≤ c.toNat && c.toNat ≤ 57

/-- Hex digit value, none for a non-hex character. -/
def hexVal (c : Char) : Option Nat :=
  if 48 ≤ c.toNat && c.toNat ≤ 57 then some (c.toNat - 48)
  else if 97 ≤ c.toNat && c.toNat ≤ 102 then some (c.toNat - 97 + 10)
  else if 65 ≤ c.toNat && c.toNat ≤ 70 then some (c.toNat - 65 + 10)
  else none

/-- JSON values as produced by the modelled JSON.parse.  Numbers keep
their source lexeme; object entries keep their parse order. -/
inductive Json where
  | null : Json
  | bool (b : Bool) : Json
  | num (lexeme : String) : Json
  | str (s : String) : Json
  | arr (elems : List Json) : Json
  | obj (entries : List (String × Json)) : Json

/-- Decoded character of a one-character JSON escape, none for an escape
that is not a one-character escape. -/
def escChar (e : Char) : Option Char :=
  if e = '"' then some '"'
  else if e = '\\' then some '\\'
  else if e = '/' then some '/'
  else if e = 'b' then some (Char.ofNat 8)
  else if e = 'f' then some (Char.ofNat 12)
  else if e = 'n' then some '\n'
  else if e = 'r' then some '\r'
  else if e = 't' then some '\t'
  else none

/-- JSON string-literal body lexer.  The input starts right after the
opening quote; the result is the decoded content together with the
characters remaining after the closing quote.  Escapes follow the JSON
grammar; a backslash-u escape is turned into the character of its code
point (surrogate halves, which JS would keep as raw UTF-16 units, are
mapped through Char.ofNat; no claim depends on them). -/
def lexStrF : Nat → List Char → Option (List Char × List Char)
  | 0, _ => none
  | _ + 1, [] => none
  | n + 1, c :: rest =>
    if c = '"' then some ([], rest)
    else if c = '\\' then
      match rest with
      | [] => none
      | e :: rest2 =>
        match escChar e with
        | some d => (lexStrF n rest2).map (fun p => (d :: p.1, p.2))
        | none =>
          if e = 'u' then
            match rest2 with
            | h1 :: h2 :: h3 :: h4 :: r =>
              match hexVal h1, hexVal h2, hexVal h3, hexVal h4 with
              | some a, some b, some c2, some d2 =>
                (lexStrF n r).map
                  (fun p => (Char.ofNat (((a * 16 + b) * 16 + c2) * 16 + d2) :: p.1, p.2))
              | _, _, _, _ => none
            | _ => none
          else none
    else if c.toNat < 32 then none
    else (lexStrF n rest).map (fun p => (c :: p.1, p.2))

/-- The string-literal lexer at its canonical fuel: every recursive step
of lexStrF consumes at least one character and one unit of fuel, so fuel
one more than the length never runs out before the input does. -/
def lexStr (cs : List Char) : Option (List Char × List Char) :=
  lexStrF (cs.length + 1) cs

/-- JSON number lexer: returns the lexeme characters and the remaining
input, following the JSON number grammar. -/
def lexNum (cs : List Char) : Option (List Char × List Char) :=
  let sgn : List Char × List Char :=
    if cs.head? = some '-' then (['-'], cs.drop 1) else ([], cs)
  match sgn.2 with
  | [] => none
  | c :: rest =>
    if ¬ isDigitC c then none
    else
      let intp : List Char × List Char :=
        if c = '0' then ([c], rest)
        else
          let ds := rest.takeWhile isDigitC
          (c :: ds, rest.drop ds.length)
      let afterInt := intp.2
      let frac : Option (List Char × List Char) :=
        if afterInt.head? = some '.' then
          let ds := (afterInt.drop 1).takeWhile isDigitC
          if ds.length = 0 then none
          else some ('.' :: ds, afterInt.drop (1 + ds.length))
        else some ([], afterInt)
      match frac with
      | none => none
      | some (fchars, afterFrac) =>
        let expo : Option (List Char × List Char) :=
          match afterFrac.head? with
          | some e =>
            if e = 'e' ∨ e = 'E' then
              let r1 := afterFrac.drop 1
              let sgn2 : List Char × List Char :=
                match r1.head? with
                | some s2 => if s2 = '+' ∨ s2 = '-' then ([s2], r1.drop 1) else ([], r1)
                | none => ([], r1)
              let ds := sgn2.2.takeWhile isDigitC
              if ds.length = 0 then none
              else some (e :: (sgn2.1 ++ ds), sgn2.2.drop ds.length)
            else some ([], afterFrac)
          | none => some ([], afterFrac)
        match expo with
        | none => none
        | some (echars, afterExp) =>
          some (sgn.1 ++ intp.1 ++ fchars ++ echars, afterExp)

/-- Parser request: a plain value, the elements of an array already
opened, or the members of an object already opened. -/
inductive PReq where
  | pv : PReq
  | pe (acc : List Json) : PReq
  | pm (acc : List (String × Json)) : PReq

/-- Recursive-descent JSON parser with a fuel argument; fuel length+1 is
always sufficient because every recursive call consumes at least one
character. -/
def parseStep : Nat → PReq → List Char → Option (Json × List Char)
  | 0, _, _ => none
  | n + 1, PReq.pv, cs =>
    match skipWs cs with
    | [] => none
    | c :: rest =>
      if c = '"' then
        (lexStr rest).map (fun p => (Json.str (String.mk p.1), p.2))
      else if c = braceO then
        match skipWs rest with
        | c2 :: rest2 =>
          if c2 = braceC then some (Json.obj [], rest2)
          else parseStep n (PReq.pm []) (c2 :: rest2)
        | [] => none
      else if c = '[' then
        match skipWs rest with
        | c2 :: rest2 =>
          if c2 = ']' then some (Json.arr [], rest2)
          else parseStep n (PReq.pe []) (c2 :: rest2)
        | [] => none
      else if c = 'n' then
        match rest with
        | 'u' :: 'l' :: 'l' :: r => some (Json.null, r)
        | _ => none
      else if c = 't' then
        match rest with
        | 'r' :: 'u' :: 'e' :: r => some (Json.bool true, r)
        | _ => none
      else if c = 'f' then
        match rest with
        | 'a' :: 'l' :: 's' :: 'e' :: r => some (Json.bool false, r)
        | _ => none
      else if c = '-' ∨ isDigitC c then
        (lexNum (c :: rest)).map (fun p => (Json.num (String.mk p.1), p.2))
      else none
  | n + 1, PReq.pe acc, cs =>
    match parseStep n PReq.pv cs with
    | none => none
    | some (v, r) =>
      match skipWs r with
      | c :: r2 =>
        if c = ',' then parseStep n (PReq.pe (acc ++ [v])) r2
        else if c = ']' then some (Json.arr (acc ++ [v]), r2)
        else none
      | [] => none
  | n + 1, PReq.pm acc, cs =>
    match skipWs cs with
    | c :: rest =>
      if c = '"' then
        match lexStr rest with
        | none => none
        | some (k, r1) =>
          match skipWs r1 with
          | c2 :: r2 =>
            if c2 = ':' then
              match parseStep n PReq.pv r2 with
              | none => none
              | some (v, r3) =>
                match skipWs r3 with
                | c3 :: r4 =>
                  if c3 = ',' then parseStep n (PReq.pm (acc ++ [(String.mk k, v)])) r4
                  else if c3 = braceC then some (Json.obj (acc ++ [(String.mk k, v)]), r4)
                  else none
                | [] => none
            else none
          | [] => none
      else none
    | [] => none

/-- Model of the library call JSON.parse: parse one value and require
only whitespace after it; any error is none (a JS throw). -/
def jsonParse (s : String) : Option Json :=
  match parseStep (s.data.length + 1) PReq.pv s.data with
  | some (v, rest) => if skipWs rest = [] then some v else none
  | none => none

/-- Global, left-to-right, non-overlapping replacement of a fixed
two-character pattern, as JS String.replace with a global regex of a
two-character literal pattern does. -/
def replace2 (a b : Char) (repl : List Char) : List Char → List Char
  | [] => []
  | [c] => [c]
  | c :: d :: rest =>
    if c = a ∧ d = b then repl ++ replace2 a b repl rest
    else c :: replace2 a b repl (d :: rest)

/-- Global replacement of a single character, as JS String.replace with a
global one-character regex does. -/
def replaceChar (a b : Char) (cs : List Char) : List Char :=
  cs.map (fun c => if c = a then b else c)

/-- Literal-prefix test on character lists. -/
def startsWithL : List Char → List Char → Bool
  | [], _ => true
  | _ :: _, [] => false
  | p :: ps, c :: cs => p == c && startsWithL ps cs

/-- First-occurrence-only literal replacement, as JS String.replace with a
string pattern does. -/
def replaceFirstStr (pat repl : List Char) : List Char → List Char
  | [] => []
  | c :: rest =>
    if startsWithL pat (c :: rest) then repl ++ (c :: rest).drop pat.length
    else c :: replaceFirstStr pat repl rest

/-- Scanner for the leading-slash regex rule: a run of one or more slash
characters (forward slash only, or slash and backslash, per the flag)
directly followed by a double quote (zero-width lookahead), with a
negative lookbehind excluding the word class; the run is dropped, the
quote kept.  Models the global regex replace with empty replacement used
at lines 149 and 312/334 of extension.ts.  The Bool argument tracks
whether the lookbehind at the current position passes; fuel is at least
the remaining length, and every call consumes at least one character. -/
def lssGo (both : Bool) : Nat → Bool → List Char → List Char
  | 0, _, cs => cs
  | _ + 1, _, [] => []
  | n + 1, prevOk, c :: rest =>
    if prevOk && isSlashB both c then
      let run := (c :: rest).takeWhile (isSlashB both)
      let after := (c :: rest).drop run.length
      if after.head? = some '"' then lssGo both n true after
      else c :: lssGo both n (!wordClass c) rest
    else c :: lssGo both n (!wordClass c) rest

/-- Leading-slash rule applied to a whole character list. -/
def leadingSlashStrip (both : Bool) (cs : List Char) : List Char :=
  lssGo both cs.length true cs

/-- Lazy content scan for the symmetric slash regex: starting right after
the opening quote, consume the shortest run of non-quote characters that
is followed by a slash run directly followed by a quote; returns the
content and the characters after that closing quote.  The closing slash
run must be maximal because a shorter run would put a slash where the
regex requires the quote. -/
def scanContent : List Char → Option (List Char × List Char)
  | [] => none
  | c :: rest =>
    let run := (c :: rest).takeWhile (isSlashB true)
    if 1 ≤ run.length ∧ ((c :: rest).drop run.length).head? = some '"' then
      some ([], (c :: rest).drop (run.length + 1))
    else if c = '"' then none
    else (scanContent rest).map (fun p => (c :: p.1, p.2))

/-- Scanner for the symmetric slash-wrapping regex of lines 155 and
307/333: slash run, quote, lazy non-quote content, slash run, quote,
with negative lookbehind on the word class; replaced by quote, content,
quote.  Fuel is at least the remaining length; every call consumes at
least one character. -/
def symGo : Nat → Bool → List Char → List Char
  | 0, _, cs => cs
  | _ + 1, _, [] => []
  | n + 1, prevOk, c :: rest =>
    if prevOk && isSlashB true c then
      let run := (c :: rest).takeWhile (isSlashB true)
      let after := (c :: rest).drop run.length
      if after.head? = some '"' then
        match scanContent (after.drop 1) with
        | some (content, rest2) => '"' :: (content ++ '"' :: symGo n true rest2)
        | none => c :: symGo n (!wordClass c) rest
      else c :: symGo n (!wordClass c) rest
    else c :: symGo n (!wordClass c) rest

/-- Symmetric slash-wrapping rule applied to a whole character list. -/
def symStrip (cs : List Char) : List Char := symGo cs.length true cs

/-- Characters allowed in the content group of the trailing-slash regex:
anything but quote and forward slash. -/
def tsGoodChar (c : Char) : Bool := !(c == '"') && !(c == '/')

/-- Match attempt of the trailing-slash regex at an opening quote: the
input starts right after the quote; content is the maximal run without
quote or slash, then one or more forward slashes, then the closing
quote.  Returns content and the characters after the closing quote. -/
def tsMatch (rest : List Char) : Option (List Char × List Char) :=
  let content := rest.takeWhile tsGoodChar
  let r1 := rest.dropWhile tsGoodChar
  let sl := r1.takeWhile (fun c => c == '/')
  let r2 := r1.dropWhile (fun c => c == '/')
  if 1 ≤ sl.length ∧ r2.head? = some '"' then some (content, r2.drop 1)
  else none

/-- Scanner for the trailing-slash regex of lines 340/348: a quoted value
whose content has no quote and no slash, ending in a forward-slash run
before the closing quote, is replaced by the quoted content alone. -/
def tsGo : Nat → List Char → List Char
  | 0, cs => cs
  | _ + 1, [] => []
  | n + 1, c :: rest =>
    if c = '"' then
      match tsMatch rest with
      | some (content, rest2) => '"' :: (content ++ '"' :: tsGo n rest2)
      | none => '"' :: tsGo n rest
    else c :: tsGo n rest

/-- Trailing-slash rule applied to a whole character list. -/
def trailStrip (cs : List Char) : List Char := tsGo cs.length cs

/-- Scanner for the trailing-comma regex of line 357: a comma, optional
JS whitespace, then a closing brace or bracket, replaced by the closing
character alone. -/
def tcGo : Nat → List Char → List Char
  | 0, cs => cs
  | _ + 1, [] => []
  | n + 1, c :: rest =>
    if c = ',' then
      let r1 := rest.dropWhile jsWsChar
      match r1.head? with
      | some b =>
        if b = braceC ∨ b = ']' then b :: tcGo n (r1.drop 1)
        else ',' :: tcGo n rest
      | none => ',' :: tcGo n rest
    else c :: tcGo n rest

/-- Trailing-comma rule applied to a whole character list. -/
def trailingCommaStrip (cs : List Char) : List Char := tcGo cs.length cs

/-- One iteration of the multi-pass unescape loop of lines 320-329:
replace every backslash-quote by a quote, then every backslash-slash by
a slash, then every double backslash by a single backslash, in that
order. -/
def unescStep (cs : List Char) : List Char :=
  replace2 '\\' '\\' ['\\'] (replace2 '\\' '/' ['/'] (replace2 '\\' '"' ['"'] cs))

/-- The unescape loop with a fuel bound: apply unescStep; if the string
did not change the loop stops counting that iteration; otherwise it
continues.  Returns the result and the number of iterations run. -/
def unescLoop : Nat → List Char → List Char × Nat
  | 0, cs => (cs, 0)
  | n + 1, cs =>
    let t := unescStep cs
    if t = cs then (t, 1)
    else
      let p := unescLoop n t
      (p.1, p.2 + 1)

/-- The multi-pass unescape loop as written in the source: at most 5
iterations, stopping as soon as an iteration leaves the string
unchanged.  On the empty string the JS loop guard is false at once, so
zero iterations run. -/
def unescapeMulti (cs : List Char) : List Char × Nat :=
  if cs = [] then (cs, 0) else unescLoop 5 cs

/-- Bracket balancing of unquoteJsonStringValues, lines 247-253: starting
just after the opening bracket with depth 1, walk the characters while
the depth is positive; some n means the depth reached zero after
consuming n characters (the n-th being the matching close); none means
the input ended with positive depth. -/
def uqBal (oC cC : Char) : List Char → Nat → Option Nat
  | _, 0 => some 0
  | [], _ + 1 => none
  | c :: rest, d + 1 =>
    (uqBal oC cC rest (if c = oC then d + 2 else if c = cC then d else d + 1)).map (· + 1)

/-- One scan of unquoteJsonStringValues for one bracket kind: find the
next colon-quote-open pattern; balance brackets; if the character right
after the matching close is a quote, remove the quote right after the
colon and the quote right after the close and stop; otherwise keep
searching from the next position.  Returns the rewritten list on
success. -/
def uqScan (oC cC : Char) : List Char → Option (List Char)
  | [] => none
  | c :: rest =>
    if c = ':' ∧ rest.head? = some '"' ∧ (rest.drop 1).head? = some oC then
      let tl := rest.drop 2
      match uqBal oC cC tl 1 with
      | some n =>
        if (tl.drop n).head? = some '"' then
          some (':' :: oC :: (tl.take n ++ tl.drop (n + 1)))
        else (uqScan oC cC rest).map (fun r => c :: r)
      | none => (uqScan oC cC rest).map (fun r => c :: r)
    else (uqScan oC cC rest).map (fun r => c :: r)

/-- One change of the unquote loop: the brace kind is scanned first, then
the bracket kind, exactly as the for-loop over both bracket kinds with a
break on the first change does. -/
def unquoStep (cs : List Char) : Option (List Char) :=
  match uqScan braceO braceC cs with
  | some r => some r
  | none => uqScan '[' ']' cs

/-- The loop-until-no-change of unquoteJsonStringValues, with fuel.  Each
successful change removes exactly two characters, so fuel equal to the
length of the string is always sufficient (proved below). -/
def unquoLoop : Nat → List Char → List Char
  | 0, cs => cs
  | n + 1, cs =>
    match unquoStep cs with
    | some t => unquoLoop n t
    | none => cs

/-- The nested-JSON unquoter on character lists. -/
def unquoteL (cs : List Char) : List Char := unquoLoop cs.length cs

/-- Model of unquoteJsonStringValues (extension.ts lines 228-274). -/
def unquoteJsonStringValues (s : String) : String :=
  String.mk (unquoteL s.data)

/-- Model of tryUnwrapString (extension.ts lines 191-201): when the input
starts and ends with a double quote, JSON.parse it; a decoded string is
returned as-is, any other decoded value falls through to the input, and
a parse error returns the input without its first and last characters.
A total function: it never throws. -/
def tryUnwrapString (s : String) : String :=
  if s.data.head? = some '"' ∧ s.data.getLast? = some '"' then
    match jsonParse s with
    | some (Json.str t) => t
    | some _ => s
    | none => String.mk ((s.data.drop 1).dropLast)
  else s

/-- Model of wrapAndUnescape (extension.ts lines 212-215): JSON.parse of
the input wrapped in synthesized outer quotes; none models the JS throw
that the caller catches. -/
def wrapAndUnescape (s : String) : Option String :=
  match jsonParse (String.mk ('"' :: (s.data ++ ['"']))) with
  | some (Json.str t) => some t
  | some _ => some s
  | none => none

/-- Anchored whole-document unwrap of lines 353-354 for one bracket kind:
a quote, the open character, any characters, the close character, a
quote, spanning the entire string, replaced by the bracketed group. -/
def outerStripWith (oC cC : Char) (cs : List Char) : List Char :=
  if 4 ≤ cs.length ∧ cs.head? = some '"' ∧ (cs.drop 1).head? = some oC ∧
      cs.getLast? = some '"' ∧ cs.dropLast.getLast? = some cC then
    (cs.drop 1).dropLast
  else cs

/-- Both anchored whole-document unwraps, brace kind first. -/
def outerQuoteStrip (cs : List Char) : List Char :=
  outerStripWith '[' ']' (outerStripWith braceO braceC cs)

/-- Model of grafanaDeepClean (extension.ts lines 288-360), chaining the
sub-steps in the exact source order. -/
def grafanaDeepClean (s : String) : String :=
  let r1 := if s.data.head? = some (Char.ofNat 0xFEFF) then s.data.drop 1 else s.data
  let r2 := replaceChar '\r' '\n' (replace2 '\r' '\n' ['\n'] r1)
  let r3 := (tryUnwrapString (tryUnwrapString (String.mk r2))).data
  let r4 := symStrip r3
  let r5 := leadingSlashStrip true r4
  let r6 := replaceFirstStr ['/', '/', '/', '"'] ['"'] r5
  let r7 := replaceFirstStr ['/', '/', '"'] ['"'] r6
  let r8 := replaceFirstStr ['/', '"'] ['"'] r7
  let r9 := (unescapeMulti r8).1
  let r10 := symStrip r9
  let r11 := leadingSlashStrip true r10
  let r12 := trailStrip r11
  let r13 := unquoteL r12
  let r14 := trailStrip r13
  let r15 := outerQuoteStrip r14
  let r16 := trailingCommaStrip r15
  String.mk r16

/-- Result of the pipeline: success with the parsed value and the text
that parsed (bestAttempt, the cleanedText of the spec), or failure with
an error message and the best attempt. -/
inductive ParseResult where
  | ok (value : Json) (bestAttempt : String) : ParseResult
  | fail (error : String) (bestAttempt : String) : ParseResult

/-- The failure message of the pipeline. -/
def errMsg : String := "Ninguna estrategia de limpieza produjo JSON válido."

/-- Strategy 1: the input as-is. -/
def strat1 : String → Option String := fun s => some s

/-- Strategy 2: trim whitespace only. -/
def strat2 : String → Option String := fun s => some (jsTrim s)

/-- Strategy 3: unwrap a single outer quote layer. -/
def strat3 : String → Option String := fun s => some (tryUnwrapString (jsTrim s))

/-- Strategy 4: wrap in outer quotes and JSON.parse; the only strategy
whose computation can throw, modelled by none. -/
def strat4 : String → Option String := fun s => wrapAndUnescape (jsTrim s)

/-- Candidate of strategy 5: forward-slash-before-quote removal, then a
single global backslash-quote to quote replacement. -/
def s5core (s : String) : String :=
  String.mk (replace2 '\\' '"' ['"'] (leadingSlashStrip false (jsTrim s).data))

/-- Strategy 5. -/
def strat5 : String → Option String := fun s => some (s5core s)

/-- Candidate of strategy 6: symmetric slash-wrapping removal only. -/
def s6core (s : String) : String := String.mk (symStrip (jsTrim s).data)

/-- Strategy 6. -/
def strat6 : String → Option String := fun s => some (s6core s)

/-- Strategy 7: full deep clean. -/
def strat7 : String → Option String := fun s => some (grafanaDeepClean (jsTrim s))

/-- Strategy 8: deep clean followed by one more unwrap. -/
def strat8 : String → Option String :=
  fun s => some (tryUnwrapString (grafanaDeepClean (jsTrim s)))

/-- The eight strategies in source order. -/
def strategies : List (String → Option String) :=
  [strat1, strat2, strat3, strat4, strat5, strat6, strat7, strat8]

/-- The strategy loop of cleanAndParseJson, lines 162-179: compute the
candidate (none models a throw inside the strategy, which leaves the
best attempt unchanged), record it as the best attempt, JSON.parse it,
return on the first success; when the list is exhausted, fail with the
current best attempt. -/
def runStrategies : List (String → Option String) → String → String → ParseResult
  | [], _, best => ParseResult.fail errMsg best
  | st :: rest, raw, best =>
    match st raw with
    | none => runStrategies rest raw best
    | some cleaned =>
      match jsonParse cleaned with
      | some v => ParseResult.ok v cleaned
      | none => runStrategies rest raw cleaned

/-- Model of cleanAndParseJson (extension.ts lines 137-180). -/
def cleanAndParseJson (raw : String) : ParseResult :=
  runStrategies strategies raw raw

/-- The seven strategies other than strategy 4, in source order; used to
state that a throwing strategy 4 is skipped without affecting the rest
of the pipeline. -/
def strategiesSkip4 : List (String → Option String) :=
  [strat1, strat2, strat3, strat5, strat6, strat7, strat8]

/-- A string contains an unescaped double quote: scanning left to right,
a backslash escapes the character after it, and an unescaped quote is a
quote met outside any escape. -/
def hasUnescQuote : List Char → Bool
  | [] => false
  | c :: rest =>
    if c = '"' then true
    else if c = '\\' then
      match rest with
      | [] => false
      | _ :: r2 => hasUnescQuote r2
    else hasUnescQuote rest

/-- The concrete C5 input: the word key surrounded on each side by five
backslashes and a quote. -/
def c5input : List Char :=
  List.replicate 5 '\\' ++ '"' :: ('k' :: 'e' :: 'y' :: (List.replicate 5 '\\' ++ ['"']))

/-
  Theorems.
-/

/-- C1: for every input string s that the JSON parser accepts,
cleanAndParseJson returns a success outcome whose cleaned text is s
itself (strategy 1, the identity, matches first) and whose parsed value
is the value obtained by parsing s directly. -/
theorem c1_valid_json_identity (s : String) (v : Json) (h : jsonParse s = some v) :
    cleanAndParseJson s = ParseResult.ok v s := by
  simp [cleanAndParseJson, strategies, runStrategies, strat1, h]

/-- Witness for C1 at the concrete already-valid input null. -/
theorem c1_valid_json_identity_witness :
    jsonParse "null" = some Json.null ∧
      cleanAndParseJson "null" = ParseResult.ok Json.null "null" :=
  ⟨rfl, c1_valid_json_identity "null" Json.null rfl⟩

/-- Splitting a list at a position whose element is known via drop and
head. -/
theorem splitAtHead (l : List Char) (n : Nat) (a : Char)
    (h : (l.drop n).head? = some a) :
    l = l.take n ++ a :: l.drop (n + 1) := by
  cases hd : l.drop n with
  | nil => rw [hd] at h; simp at h
  | cons x xs =>
    rw [hd] at h
    simp only [List.head?_cons, Option.some_inj] at h
    have hx : l.drop (n + 1) = xs := by
      have h1 : l.drop (n + 1) = (l.drop n).drop 1 := by
        rw [List.drop_drop]
      rw [h1, hd]
      rfl
    conv_lhs => rw [← List.take_append_drop n l]
    rw [hd, hx, h]

/-- Structure of a successful scan of the nested-JSON unquoter: the
input splits as a prefix, a quote, a middle part, a quote and a suffix,
and the output is the input with exactly those two quote characters
removed. -/
theorem uqScan_shape (oC cC : Char) :
    ∀ cs t, uqScan oC cC cs = some t →
      ∃ u v w, cs = u ++ '"' :: v ++ '"' :: w ∧ t = u ++ v ++ w := by
  intro cs
  induction cs with
  | nil => intro t h; simp [uqScan] at h
  | cons c rest ih =>
    intro t h
    rw [uqScan] at h
    by_cases hc : c = ':' ∧ rest.head? = some '"' ∧ (rest.drop 1).head? = some oC
    · rw [if_pos hc] at h
      obtain ⟨hc1, hc2, hc3⟩ := hc
      cases hb : uqBal oC cC (rest.drop 2) 1 with
      | none =>
        simp only [hb] at h
        rw [Option.map_eq_some'] at h
        obtain ⟨t2, ht2, rfl⟩ := h
        obtain ⟨u, v, w, hcs, ht⟩ := ih t2 ht2
        exact ⟨c :: u, v, w, by rw [hcs]; rfl, by rw [ht]; rfl⟩
      | some n =>
        simp only [hb] at h
        by_cases hq : ((rest.drop 2).drop n).head? = some '"'
        · rw [if_pos hq] at h
          have ht := Option.some_inj.mp h
          cases rest with
          | nil => simp at hc2
          | cons r1 rest1 =>
            simp only [List.head?_cons, Option.some_inj] at hc2
            cases rest1 with
            | nil => simp at hc3
            | cons r2 tl =>
              subst hc1
              subst hc2
              have hd2 : List.drop 2 ('"' :: r2 :: tl) = tl := rfl
              rw [hd2] at hq ht
              have hoc : r2 = oC := by simpa using hc3
              rw [← hoc] at ht
              refine ⟨[':'], r2 :: tl.take n, tl.drop (n + 1), ?_, ?_⟩
              · have hsplit := splitAtHead tl n '"' hq
                simp only [List.cons_append, List.nil_append]
                rw [← hsplit]
              · rw [← ht]
                simp
        · rw [if_neg hq] at h
          rw [Option.map_eq_some'] at h
          obtain ⟨t2, ht2, rfl⟩ := h
          obtain ⟨u, v, w, hcs, ht⟩ := ih t2 ht2
          exact ⟨c :: u, v, w, by rw [hcs]; rfl, by rw [ht]; rfl⟩
    · rw [if_neg hc] at h
      rw [Option.map_eq_some'] at h
      obtain ⟨t2, ht2, rfl⟩ := h
      obtain ⟨u, v, w, hcs, ht⟩ := ih t2 ht2
      exact ⟨c :: u, v, w, by rw [hcs]; rfl, by rw [ht]; rfl⟩

/-- Structure of one change of the unquote loop, for either bracket
kind. -/
theorem unquoStep_shape (cs t : List Char) (h : unquoStep cs = some t) :
    ∃ u v w, cs = u ++ '"' :: v ++ '"' :: w ∧ t = u ++ v ++ w := by
  unfold unquoStep at h
  cases h1 : uqScan braceO braceC cs with
  | some r =>
    rw [h1] at h
    exact uqScan_shape braceO braceC cs t (by rw [h1, Option.some_inj.mp h])
  | none =>
    rw [h1] at h
    exact uqScan_shape '[' ']' cs t h

/-- Every successful change of the unquote loop removes exactly two
characters. -/
theorem unquoStep_len (cs t : List Char) (h : unquoStep cs = some t) :
    t.length + 2 = cs.length := by
  obtain ⟨u, v, w, hcs, ht⟩ := unquoStep_shape cs t h
  subst hcs ht
  simp
  omega

/-- Fuel at least the length of the string drives the unquote loop to a
fixed point. -/
theorem unquoLoop_fix : ∀ n cs, cs.length ≤ n → unquoStep (unquoLoop n cs) = none := by
  intro n
  induction n with
  | zero =>
    intro cs hlen
    have hnil : cs = [] := List.eq_nil_of_length_eq_zero (Nat.le_zero.mp hlen)
    subst hnil
    rfl
  | succ n ih =>
    intro cs hlen
    rw [unquoLoop]
    cases h : unquoStep cs with
    | none => exact h
    | some t =>
      exact ih t (by have := unquoStep_len cs t h; omega)

/-- C3: the nested-JSON unquoter removes exactly the two quote
characters around a colon-prefixed bracket-balanced value and nothing
else (the shape clause), the single-nesting example is rewritten to the
plainly nested document and parses identically to it, and two levels of
nesting are resolved in one call. -/
theorem c3_nested_json_unquoter :
    unquoteJsonStringValues "\x7b\"Content\":\"\x7b\"key\":\"val\"\x7d\"\x7d" =
      "\x7b\"Content\":\x7b\"key\":\"val\"\x7d\x7d" ∧
    jsonParse (unquoteJsonStringValues "\x7b\"Content\":\"\x7b\"key\":\"val\"\x7d\"\x7d") =
      jsonParse "\x7b\"Content\":\x7b\"key\":\"val\"\x7d\x7d" ∧
    unquoteJsonStringValues "\x7b\"A\":\"\x7b\"B\":\"\x7b\"k\":\"v\"\x7d\"\x7d\"\x7d" =
      "\x7b\"A\":\x7b\"B\":\x7b\"k\":\"v\"\x7d\x7d\x7d" ∧
    (∀ cs t, unquoStep cs = some t →
      ∃ u v w, cs = u ++ '"' :: v ++ '"' :: w ∧ t = u ++ v ++ w) :=
  ⟨rfl, rfl, rfl, fun cs t h => unquoStep_shape cs t h⟩

/-- Witness for the quantified clause of C3 at a concrete array-valued
input. -/
theorem c3_nested_json_unquoter_witness :
    ∃ u v w, (":\"[]\"").data = u ++ '"' :: v ++ '"' :: w ∧
      (":[]").data = u ++ v ++ w :=
  c3_nested_json_unquoter.2.2.2 (":\"[]\"").data (":[]").data rfl

/-- C4: the nested-JSON unquoter terminates on every input: each
successful removal shortens the string by exactly two characters, and
the result of the function is a fixed point, a full pass over both
bracket kinds finding no further match. -/
theorem c4_unquoter_terminates :
    (∀ cs t, unquoStep cs = some t → t.length + 2 = cs.length) ∧
    (∀ s : String, unquoStep (unquoteJsonStringValues s).data = none) := by
  constructor
  · exact unquoStep_len
  · intro s
    show unquoStep (unquoLoop s.data.length s.data) = none
    exact unquoLoop_fix s.data.length s.data (Nat.le_refl _)

/-- Witness for the quantified clauses of C4 at a concrete input. -/
theorem c4_unquoter_terminates_witness :
    (":\x7b\x7d").data.length + 2 = (":\"\x7b\x7d\"").data.length ∧
      unquoStep (unquoteJsonStringValues ":\"\x7b\x7d\"").data = none :=
  ⟨c4_unquoter_terminates.1 (":\"\x7b\x7d\"").data (":\x7b\x7d").data rfl,
   c4_unquoter_terminates.2 ":\"\x7b\x7d\""⟩

/-- C6: the symmetric slash-delimiter rule turns slash-quote key
slash-quote into the bare quoted key, drops the slash runs on both sides
of a triply wrapped value, and leaves a value containing colon-slash-slash
followed by domain characters unchanged, the negative lookbehind blocking
any slash run preceded by a word-class character. -/
theorem c6_symmetric_slash_rule :
    String.mk (symStrip ("/\"key/\"").data) = "\"key\"" ∧
    String.mk (symStrip ("///\"value///\"").data) = "\"value\"" ∧
    String.mk (symStrip ("\x7b\"u\":\"http://x.io/\"\x7d").data) =
      "\x7b\"u\":\"http://x.io/\"\x7d" :=
  ⟨rfl, rfl, rfl⟩

/-- Iteration count of the unescape loop never exceeds the fuel. -/
theorem unescLoop_count_le : ∀ n cs, (unescLoop n cs).2 ≤ n := by
  intro n
  induction n with
  | zero => intro cs; simp [unescLoop]
  | succ n ih =>
    intro cs
    rw [unescLoop]
    by_cases h : unescStep cs = cs
    · simp [h]
    · simp [h]
      have := ih (unescStep cs)
      omega

/-- When the unescape loop stops below its fuel bound, its result is a
fixed point of the step. -/
theorem unescLoop_fix : ∀ n cs, (unescLoop n cs).2 < n →
    unescStep (unescLoop n cs).1 = (unescLoop n cs).1 := by
  intro n
  induction n with
  | zero => intro cs h; simp [unescLoop] at h
  | succ n ih =>
    intro cs h
    rw [unescLoop] at h ⊢
    by_cases hs : unescStep cs = cs
    · simp only [if_pos hs]
      rw [hs, hs]
    · simp only [if_neg hs] at h ⊢
      exact ih (unescStep cs) (by omega)

/-- C5: the multi-pass unescape loop runs at most 5 iterations; when it
stops below the cap, the last iteration left the string unchanged (a
step fixed point); and on the four-level escaped input with five
backslashes and a quote around key it resolves to the plainly quoted
key in 4 iterations, within the cap. -/
theorem c5_unescape_loop :
    (∀ cs, (unescapeMulti cs).2 ≤ 5) ∧
    (∀ cs, (unescapeMulti cs).2 < 5 →
      unescStep (unescapeMulti cs).1 = (unescapeMulti cs).1) ∧
    unescapeMulti c5input = (['"', 'k', 'e', 'y', '"'], 4) := by
  refine ⟨?_, ?_, by decide⟩
  · intro cs
    unfold unescapeMulti
    by_cases h : cs = []
    · simp [h]
    · simp only [if_neg h]
      exact unescLoop_count_le 5 cs
  · intro cs h
    unfold unescapeMulti at h ⊢
    by_cases hn : cs = []
    · subst hn
      rfl
    · simp only [if_neg hn] at h ⊢
      exact unescLoop_fix 5 cs h

/-- Witness for the quantified clauses of C5 at the concrete input. -/
theorem c5_unescape_loop_witness :
    (unescapeMulti c5input).2 < 5 ∧
      unescStep (unescapeMulti c5input).1 = (unescapeMulti c5input).1 :=
  ⟨by decide, c5_unescape_loop.2.1 c5input (by decide)⟩

/-- Splitting takeWhile and dropWhile over an append whose left part
satisfies the predicate and whose right part starts with a failing
character. -/
theorem takeWhile_all_append (p : Char → Bool) :
    ∀ (A l : List Char), (∀ c ∈ A, p c = true) →
      (∀ x, l.head? = some x → p x = false) →
      (A ++ l).takeWhile p = A ∧ (A ++ l).dropWhile p = l := by
  intro A
  induction A with
  | nil =>
    intro l _ hl
    constructor
    · cases l with
      | nil => rfl
      | cons x xs => simp [List.takeWhile_cons, hl x rfl]
    · cases l with
      | nil => rfl
      | cons x xs => simp [List.dropWhile_cons, hl x rfl]
  | cons a A ih =>
    intro l hA hl
    have hpa : p a = true := hA a (by simp)
    have hrec := ih l (fun c hc => hA c (by simp [hc])) hl
    constructor
    · simp [List.takeWhile_cons, hpa, hrec.1]
    · simp [List.dropWhile_cons, hpa, hrec.2]

/-- Characterization of a successful trailing-slash match: the content
holds no slash and the matched text is the content, a nonempty run of
forward slashes, and the closing quote. -/
theorem tsMatch_char (rest content r2 : List Char)
    (h : tsMatch rest = some (content, r2)) :
    (∀ c ∈ content, c ≠ '/') ∧
      ∃ k, 1 ≤ k ∧ rest = content ++ List.replicate k '/' ++ '"' :: r2 := by
  simp only [tsMatch] at h
  split at h
  case isFalse => exact absurd h (by simp)
  case isTrue hcond =>
    obtain ⟨hsl, hq⟩ := hcond
    rw [Option.some_inj] at h
    have hc0 : rest.takeWhile tsGoodChar = content := congrArg Prod.fst h
    have hr0 : ((rest.dropWhile tsGoodChar).dropWhile (fun c => c == '/')).drop 1 = r2 :=
      congrArg Prod.snd h
    constructor
    · intro c hc
      rw [← hc0] at hc
      have := List.mem_takeWhile_imp hc
      simp [tsGoodChar] at this
      exact this.2
    · refine ⟨((rest.dropWhile tsGoodChar).takeWhile (fun c => c == '/')).length, hsl, ?_⟩
      have e1 : rest = rest.takeWhile tsGoodChar ++ rest.dropWhile tsGoodChar :=
        (List.takeWhile_append_dropWhile _ _).symm
      have e2 : rest.dropWhile tsGoodChar =
          (rest.dropWhile tsGoodChar).takeWhile (fun c => c == '/') ++
            (rest.dropWhile tsGoodChar).dropWhile (fun c => c == '/') :=
        (List.takeWhile_append_dropWhile _ _).symm
      have e3 : (rest.dropWhile tsGoodChar).takeWhile (fun c => c == '/') =
          List.replicate ((rest.dropWhile tsGoodChar).takeWhile (fun c => c == '/')).length '/' :=
        List.eq_replicate_of_mem (fun b hb => by
          have := List.mem_takeWhile_imp hb
          simpa using this)
      have e4 : (rest.dropWhile tsGoodChar).dropWhile (fun c => c == '/') = '"' :: r2 := by
        cases hx : (rest.dropWhile tsGoodChar).dropWhile (fun c => c == '/') with
        | nil => rw [hx] at hq; simp at hq
        | cons y ys =>
          rw [hx] at hq hr0
          simp only [List.head?_cons, Option.some_inj] at hq
          simp only [List.drop_succ_cons, List.drop_zero] at hr0
          rw [hq, hr0]
      conv_lhs => rw [e1, e2, e4]
      rw [hc0, ← e3]
      simp [List.append_assoc]

/-- The trailing-slash scanner maps the empty list to itself for every
fuel value. -/
theorem tsGo_nil : ∀ n, tsGo n [] = [] := by
  intro n
  cases n <;> rfl

/-- The trailing-slash rule strips the whole slash run of a quoted value
whose content has no quote and no slash. -/
theorem trailStrip_strips (A : List Char) (k : Nat)
    (hA : ∀ c ∈ A, c ≠ '"' ∧ c ≠ '/') (hk : 1 ≤ k) :
    trailStrip ('"' :: (A ++ List.replicate k '/' ++ ['"'])) = '"' :: (A ++ ['"']) := by
  obtain ⟨q, rfl⟩ : ∃ q, k = q + 1 := ⟨k - 1, by omega⟩
  have hgood : ∀ c ∈ A, tsGoodChar c = true := fun c hc => by
    have h1 := (hA c hc).1
    have h2 := (hA c hc).2
    simp [tsGoodChar, h1, h2]
  have hhead : ∀ x, (List.replicate (q + 1) '/' ++ ['"']).head? = some x →
      tsGoodChar x = false := by
    intro x hx
    rw [List.replicate_succ] at hx
    simp only [List.cons_append, List.head?_cons, Option.some_inj] at hx
    rw [← hx]
    rfl
  have hsplit1 := takeWhile_all_append tsGoodChar A
    (List.replicate (q + 1) '/' ++ ['"']) hgood hhead
  have hslash : ∀ c ∈ List.replicate (q + 1) '/', (c == '/') = true := by
    intro c hc
    have := List.eq_of_mem_replicate hc
    simp [this]
  have hq2 : ∀ x, (['"'] : List Char).head? = some x → (x == '/') = false := by
    intro x hx
    simp only [List.head?_cons, Option.some_inj] at hx
    rw [← hx]
    rfl
  have hsplit2 := takeWhile_all_append (fun c => c == '/')
    (List.replicate (q + 1) '/') ['"'] hslash hq2
  have hmatch : tsMatch (A ++ List.replicate (q + 1) '/' ++ ['"']) = some (A, []) := by
    simp only [tsMatch, List.append_assoc]
    rw [hsplit1.1, hsplit1.2, hsplit2.1, hsplit2.2]
    simp
  have hlen : ('"' :: (A ++ List.replicate (q + 1) '/' ++ ['"'])).length =
      (A ++ List.replicate (q + 1) '/' ++ ['"']).length + 1 := by simp
  show tsGo ('"' :: (A ++ List.replicate (q + 1) '/' ++ ['"'])).length
      ('"' :: (A ++ List.replicate (q + 1) '/' ++ ['"'])) = '"' :: (A ++ ['"'])
  rw [hlen, tsGo]
  rw [if_pos rfl]
  rw [List.append_assoc] at hmatch ⊢
  rw [hmatch]
  simp [tsGo_nil]

/-- C7: the trailing-slash stripper leaves the URL value unchanged
because its content holds another slash, turns the CommerceId value into
its slash-free form, strips the full trailing slash run of every quoted
value whose content has no quote and no slash, and only ever matches
values whose content has no other slash (the characterization of
tsMatch). -/
theorem c7_trailing_slash_stripper :
    String.mk (trailStrip ("\"https://example.com/\"").data) = "\"https://example.com/\"" ∧
    String.mk (trailStrip ("\"CommerceId/\"").data) = "\"CommerceId\"" ∧
    (∀ rest content r2, tsMatch rest = some (content, r2) →
      (∀ c ∈ content, c ≠ '/') ∧
        ∃ k, 1 ≤ k ∧ rest = content ++ List.replicate k '/' ++ '"' :: r2) ∧
    (∀ A k, (∀ c ∈ A, c ≠ '"' ∧ c ≠ '/') → 1 ≤ k →
      trailStrip ('"' :: (A ++ List.replicate k '/' ++ ['"'])) = '"' :: (A ++ ['"'])) :=
  ⟨rfl, rfl, tsMatch_char, trailStrip_strips⟩

/-- Witness for the quantified clauses of C7 at a concrete input. -/
theorem c7_trailing_slash_stripper_witness :
    trailStrip ('"' :: (['x'] ++ List.replicate 2 '/' ++ ['"'])) = '"' :: (['x'] ++ ['"']) :=
  c7_trailing_slash_stripper.2.2.2 ['x'] 2 (by decide) (by decide)

/-- C8: tryUnwrapString returns the decoded string when the input is
quote-delimited and parses as a JSON string; strips exactly the first
and last characters when it is quote-delimited but parsing fails; and
returns the input unchanged when it is not quote-delimited.  It is a
total function, so it never raises. -/
theorem c8_tryUnwrapString_cases :
    (∀ s t, s.data.head? = some '"' → s.data.getLast? = some '"' →
      jsonParse s = some (Json.str t) → tryUnwrapString s = t) ∧
    (∀ s, s.data.head? = some '"' → s.data.getLast? = some '"' →
      jsonParse s = none → tryUnwrapString s = String.mk ((s.data.drop 1).dropLast)) ∧
    (∀ s, ¬(s.data.head? = some '"' ∧ s.data.getLast? = some '"') →
      tryUnwrapString s = s) := by
  refine ⟨?_, ?_, ?_⟩
  · intro s t h1 h2 h3
    unfold tryUnwrapString
    rw [if_pos ⟨h1, h2⟩, h3]
  · intro s h1 h2 h3
    unfold tryUnwrapString
    rw [if_pos ⟨h1, h2⟩, h3]
  · intro s h
    unfold tryUnwrapString
    rw [if_neg h]

/-- Witness for C8 at concrete inputs for all three cases. -/
theorem c8_tryUnwrapString_cases_witness :
    tryUnwrapString "\"a\"" = "a" ∧
    tryUnwrapString "\"\\\"" = "\\" ∧
    tryUnwrapString "xy" = "xy" :=
  ⟨c8_tryUnwrapString_cases.1 "\"a\"" "a" rfl rfl rfl,
   c8_tryUnwrapString_cases.2.1 "\"\\\"" rfl rfl rfl,
   c8_tryUnwrapString_cases.2.2 "xy" (by decide)⟩

/-- C2: when no strategy candidate parses (strategy 4 may also throw),
the pipeline returns, without raising, a failure whose best attempt is
the candidate of the last strategy, strategy 8: the unwrap of the deep
clean of the trimmed input. -/
theorem c2_failure_best_attempt (raw : String)
    (h1 : jsonParse raw = none)
    (h2 : jsonParse (jsTrim raw) = none)
    (h3 : jsonParse (tryUnwrapString (jsTrim raw)) = none)
    (h4 : ∀ c, wrapAndUnescape (jsTrim raw) = some c → jsonParse c = none)
    (h5 : jsonParse (s5core raw) = none)
    (h6 : jsonParse (s6core raw) = none)
    (h7 : jsonParse (grafanaDeepClean (jsTrim raw)) = none)
    (h8 : jsonParse (tryUnwrapString (grafanaDeepClean (jsTrim raw))) = none) :
    cleanAndParseJson raw =
      ParseResult.fail errMsg (tryUnwrapString (grafanaDeepClean (jsTrim raw))) := by
  unfold cleanAndParseJson strategies
  rw [runStrategies]
  simp only [strat1, h1]
  rw [runStrategies]
  simp only [strat2, h2]
  rw [runStrategies]
  simp only [strat3, h3]
  rw [runStrategies]
  simp only [strat4]
  cases hw : wrapAndUnescape (jsTrim raw) with
  | none =>
    simp only [runStrategies, strat5, strat6, strat7, strat8, h5, h6, h7, h8]
  | some c =>
    simp only [h4 c hw, runStrategies, strat5, strat6, strat7, strat8, h5, h6, h7, h8]

set_option maxHeartbeats 2000000 in
/-- Witness for C2 at the concrete truncated input consisting of a
single open brace, which every strategy maps to itself. -/
theorem c2_failure_best_attempt_witness :
    cleanAndParseJson "\x7b" = ParseResult.fail errMsg (tryUnwrapString (grafanaDeepClean (jsTrim "\x7b"))) :=
  c2_failure_best_attempt "\x7b" rfl rfl rfl
    (fun c hc => by
      have h0 : wrapAndUnescape (jsTrim "\x7b") = some "\x7b" := rfl
      rw [h0] at hc
      rw [← Option.some_inj.mp hc]
      exact rfl)
    rfl rfl rfl rfl

/-- C10: tryUnwrapString on the one-character string consisting of a
single double quote returns the empty string: the single character
passes both the starts-with and ends-with checks, the JSON decode fails,
and stripping the first and last characters of a length-one string
leaves nothing. -/
theorem c10_single_quote_empty : tryUnwrapString "\"" = "" := rfl

/-- One-step unfolding of the fueled string lexer at a cons cell. -/
theorem lexStrF_succ (n : Nat) (c : Char) (rest : List Char) :
    lexStrF (n + 1) (c :: rest) =
      (if c = '"' then some ([], rest)
      else if c = '\\' then
        match rest with
        | [] => none
        | e :: rest2 =>
          match escChar e with
          | some d => (lexStrF n rest2).map (fun p => (d :: p.1, p.2))
          | none =>
            if e = 'u' then
              match rest2 with
              | h1 :: h2 :: h3 :: h4 :: r =>
                match hexVal h1, hexVal h2, hexVal h3, hexVal h4 with
                | some a, some b, some c2, some d2 =>
                  (lexStrF n r).map
                    (fun p => (Char.ofNat (((a * 16 + b) * 16 + c2) * 16 + d2) :: p.1, p.2))
                | _, _, _, _ => none
              | _ => none
            else none
      else if c.toNat < 32 then none
      else (lexStrF n rest).map (fun p => (c :: p.1, p.2))) := by
  with_unfolding_all rfl

/-- The lexer at an opening double quote closes at once. -/
theorem lexStrF_quote (n : Nat) (rest : List Char) :
    lexStrF (n + 1) ('"' :: rest) = some ([], rest) := by
  rw [lexStrF_succ]
  simp

/-- The lexer at a one-character escape decodes it and continues. -/
theorem lexStrF_esc (n : Nat) (e : Char) (rest2 : List Char) (d : Char)
    (hesc : escChar e = some d) :
    lexStrF (n + 1) ('\\' :: e :: rest2) =
      (lexStrF n rest2).map (fun p => (d :: p.1, p.2)) := by
  rw [lexStrF_succ]
  have hne : ('\\' : Char) ≠ '"' := by decide
  rw [if_neg hne, if_pos rfl]
  simp only [hesc]

/-- The lexer at a plain character keeps it and continues. -/
theorem lexStrF_plain (n : Nat) (c : Char) (rest : List Char)
    (h1 : ¬ c = '"') (h2 : ¬ c = '\\') (h3 : ¬ c.toNat < 32) :
    lexStrF (n + 1) (c :: rest) = (lexStrF n rest).map (fun p => (c :: p.1, p.2)) := by
  rw [lexStrF_succ]
  rw [if_neg h1, if_neg h2, if_neg h3]

/-- A leading double quote is an unescaped quote. -/
theorem hasUnescQuote_quote (rest : List Char) : hasUnescQuote ('"' :: rest) = true := by
  cases rest <;> rfl

/-- A backslash escapes the character after it. -/
theorem hasUnescQuote_esc (e : Char) (r2 : List Char) :
    hasUnescQuote ('\\' :: e :: r2) = hasUnescQuote r2 := rfl

/-- Any other character does not affect the unescaped-quote search. -/
theorem hasUnescQuote_other (c : Char) (rest : List Char)
    (h1 : ¬ c = '"') (h2 : ¬ c = '\\') :
    hasUnescQuote (c :: rest) = hasUnescQuote rest := by
  cases rest <;> simp [hasUnescQuote, h1, h2]

/-- A hex digit is neither a quote nor a backslash. -/
theorem hexVal_ne (c : Char) (n : Nat) (h : hexVal c = some n) : c ≠ '"' ∧ c ≠ '\\' := by
  constructor <;> intro he <;> subst he <;> simp [hexVal] at h

/-- Main lexer lemma for C9: appending a closing quote to a string that
contains an unescaped quote never lets the lexer consume the appended
quote as the closing one; it either errors or stops strictly inside,
leaving a remainder that still ends with the appended quote. -/
theorem lexStrF_unesc : ∀ fuel cs, cs.length + 1 ≤ fuel → hasUnescQuote cs = true →
    lexStrF fuel (cs ++ ['"']) = none ∨
      ∃ p v, lexStrF fuel (cs ++ ['"']) = some (p, v ++ ['"']) := by
  intro fuel
  induction fuel with
  | zero => intro cs hlen hq; omega
  | succ n ih =>
    intro cs hlen hq
    cases cs with
    | nil => simp [hasUnescQuote] at hq
    | cons c rest =>
      simp only [List.cons_append]
      by_cases hcq : c = '"'
      · subst hcq
        right
        exact ⟨[], rest, by rw [lexStrF_quote]⟩
      · by_cases hcb : c = '\\'
        · subst hcb
          cases rest with
          | nil => simp [hasUnescQuote] at hq
          | cons e rest2 =>
            have hq2 : hasUnescQuote rest2 = true := by
              rw [hasUnescQuote_esc] at hq; exact hq
            simp only [List.cons_append]
            cases hesc : escChar e with
            | some d =>
              rw [lexStrF_esc n e (rest2 ++ ['"']) d hesc]
              rcases ih rest2 (by simp at hlen ⊢; omega) hq2 with hnone | ⟨p, v, hsome⟩
              · left; rw [hnone]; rfl
              · right; exact ⟨d :: p, v, by rw [hsome]; rfl⟩
            | none =>
              by_cases heu : e = 'u'
              · subst heu
                have heun : escChar 'u' = none := rfl
                have hne : ('\\' : Char) ≠ '"' := by decide
                cases rest2 with
                | nil => simp [hasUnescQuote] at hq2
                | cons a rest3 =>
                  cases rest3 with
                  | nil =>
                    left
                    rw [lexStrF_succ, if_neg hne, if_pos rfl]
                    simp [heun]
                  | cons b rest4 =>
                    cases rest4 with
                    | nil =>
                      left
                      rw [lexStrF_succ, if_neg hne, if_pos rfl]
                      simp [heun]
                    | cons c3 rest5 =>
                      cases rest5 with
                      | nil =>
                        left
                        rw [lexStrF_succ, if_neg hne, if_pos rfl]
                        have hq4 : hexVal '"' = none := rfl
                        rcases ha : hexVal a with _ | na <;>
                          rcases hb : hexVal b with _ | nb <;>
                            rcases hc : hexVal c3 with _ | nc <;>
                              simp [heun, ha, hb, hc, hq4]
                      | cons d4 rest6 =>
                        rw [lexStrF_succ, if_neg hne, if_pos rfl]
                        rcases ha : hexVal a with _ | na
                        · left; simp [heun, ha]
                        · rcases hb : hexVal b with _ | nb
                          · left; simp [heun, ha, hb]
                          · rcases hc : hexVal c3 with _ | nc
                            · left; simp [heun, ha, hb, hc]
                            · rcases hd : hexVal d4 with _ | nd
                              · left; simp [heun, ha, hb, hc, hd]
                              · have hq6 : hasUnescQuote rest6 = true := by
                                  have e1 := hexVal_ne a na ha
                                  have e2 := hexVal_ne b nb hb
                                  have e3 := hexVal_ne c3 nc hc
                                  have e4 := hexVal_ne d4 nd hd
                                  rw [hasUnescQuote_other a _ e1.1 e1.2,
                                    hasUnescQuote_other b _ e2.1 e2.2,
                                    hasUnescQuote_other c3 _ e3.1 e3.2,
                                    hasUnescQuote_other d4 _ e4.1 e4.2] at hq2
                                  exact hq2
                                rcases ih rest6 (by simp at hlen ⊢; omega) hq6 with
                                  hnone | ⟨p, v, hsome⟩
                                · left
                                  simp only [heun, ha, hb, hc, hd]
                                  simp [hnone]
                                  split <;> rfl
                                · right
                                  refine ⟨Char.ofNat (((na * 16 + nb) * 16 + nc) * 16 + nd) :: p,
                                    v, ?_⟩
                                  simp only [heun, ha, hb, hc, hd]
                                  simp [hsome]
                                  split
                                  case _ w1 w2 w3 w4 e1 e2 e3 e4 =>
                                    rw [ha] at e1
                                    rw [hb] at e2
                                    rw [hc] at e3
                                    rw [hd] at e4
                                    injection e1 with f1
                                    injection e2 with f2
                                    injection e3 with f3
                                    injection e4 with f4
                                    subst f1
                                    subst f2
                                    subst f3
                                    subst f4
                                    rfl
                                  case _ hne2 =>
                                    exact absurd (hne2 na nb nc nd ha hb hc hd) (by simp)
              · left
                rw [lexStrF_succ]
                have hne : ('\\' : Char) ≠ '"' := by decide
                rw [if_neg hne, if_pos rfl]
                simp [hesc, heu]
        · have hq2 : hasUnescQuote rest = true := by
            rw [hasUnescQuote_other c rest hcq hcb] at hq; exact hq
          by_cases hctl : c.toNat < 32
          · left
            rw [lexStrF_succ, if_neg hcq, if_neg hcb, if_pos hctl]
          · rw [lexStrF_plain n c (rest ++ ['"']) hcq hcb hctl]
            rcases ih rest (by simp at hlen ⊢; omega) hq2 with hnone | ⟨p, v, hsome⟩
            · left; rw [hnone]; rfl
            · right; exact ⟨c :: p, v, by rw [hsome]; rfl⟩

/-- Skipping whitespace in a list ending with a quote never empties it. -/
theorem skipWs_append_quote (v : List Char) : skipWs (v ++ ['"']) ≠ [] := by
  induction v with
  | nil => decide
  | cons x xs ih =>
    show ((x :: (xs ++ ['"'])).dropWhile jsonWsChar) ≠ []
    rw [List.dropWhile_cons]
    by_cases hx : jsonWsChar x = true
    · simp only [hx, if_true]
      exact ih
    · simp only [hx]
      simp

/-- The value parser at an opening quote delegates to the string lexer;
the fuel only has to be positive because the lexer carries its own. -/
theorem parseStep_pv_quote (n : Nat) (rest : List Char) :
    parseStep (n + 1) PReq.pv ('"' :: rest) =
      (lexStr rest).map (fun p => (Json.str (String.mk p.1), p.2)) := by
  with_unfolding_all rfl

/-- JSON.parse of a string containing an unescaped quote, wrapped in
synthesized outer quotes, always fails, so wrapAndUnescape throws. -/
theorem wrapAndUnescape_unesc (t : String) (h : hasUnescQuote t.data = true) :
    wrapAndUnescape t = none := by
  have hjp : jsonParse (String.mk ('"' :: (t.data ++ ['"']))) = none := by
    unfold jsonParse
    have hdata : (String.mk ('"' :: (t.data ++ ['"']))).data = '"' :: (t.data ++ ['"']) := rfl
    rw [hdata]
    have hlen : ('"' :: (t.data ++ ['"'])).length = (t.data ++ ['"']).length + 1 := by simp
    rw [hlen, parseStep_pv_quote]
    have hwrap : lexStr (t.data ++ ['"']) =
        lexStrF ((t.data ++ ['"']).length + 1) (t.data ++ ['"']) := rfl
    have hfuel : t.data.length + 1 ≤ (t.data ++ ['"']).length + 1 := by simp
    rcases lexStrF_unesc ((t.data ++ ['"']).length + 1) t.data hfuel h with hnone | ⟨p, v, hsome⟩
    · rw [hwrap, hnone]
      rfl
    · rw [hwrap, hsome]
      simp [skipWs_append_quote v]
  unfold wrapAndUnescape
  rw [hjp]

/-- Removing a strategy that returns none from anywhere in the strategy
list does not change the outcome of the loop. -/
theorem runStrategies_skip (st : String → Option String) (raw : String)
    (hst : st raw = none) :
    ∀ (l1 l2 : List (String → Option String)) (b : String),
      runStrategies (l1 ++ st :: l2) raw b = runStrategies (l1 ++ l2) raw b := by
  intro l1
  induction l1 with
  | nil =>
    intro l2 b
    simp only [List.nil_append]
    rw [runStrategies]
    simp only [hst]
  | cons h1 t1 ih =>
    intro l2 b
    simp only [List.cons_append]
    rw [runStrategies, runStrategies]
    cases hh : h1 raw with
    | none =>
      simp only [hh]
      exact ih l2 b
    | some c =>
      simp only [hh]
      cases hp : jsonParse c with
      | some v => simp only [hp]
      | none =>
        simp only [hp]
        exact ih l2 c

/-- C9: when the trimmed input contains an unescaped double quote,
strategy 4 (wrapAndUnescape) raises while decoding the synthesized
quote-wrapped literal, and the pipeline behaves exactly as if strategy 4
were absent: the throw is caught, the best attempt is untouched, and the
loop proceeds with the remaining strategies. -/
theorem c9_escape_wrap_raises (raw : String)
    (h : hasUnescQuote (jsTrim raw).data = true) :
    wrapAndUnescape (jsTrim raw) = none ∧
      cleanAndParseJson raw = runStrategies strategiesSkip4 raw raw := by
  have h1 : wrapAndUnescape (jsTrim raw) = none := wrapAndUnescape_unesc _ h
  refine ⟨h1, ?_⟩
  have h2 : strat4 raw = none := by simp [strat4, h1]
  have h3 := runStrategies_skip strat4 raw h2 [strat1, strat2, strat3]
    [strat5, strat6, strat7, strat8] raw
  calc cleanAndParseJson raw
      = runStrategies ([strat1, strat2, strat3] ++ strat4 ::
          [strat5, strat6, strat7, strat8]) raw raw := rfl
    _ = runStrategies ([strat1, strat2, strat3] ++
          [strat5, strat6, strat7, strat8]) raw raw := h3
    _ = runStrategies strategiesSkip4 raw raw := rfl

/-- Witness for C9 at a concrete input with an unescaped embedded
quote. -/
theorem c9_escape_wrap_raises_witness :
    hasUnescQuote (jsTrim "x\"y").data = true ∧
      (wrapAndUnescape (jsTrim "x\"y") = none ∧
        cleanAndParseJson "x\"y" = runStrategies strategiesSkip4 "x\"y" "x\"y") :=
  ⟨rfl, c9_escape_wrap_raises "x\"y" rfl⟩

end WrenchIT
